import Mathlib

/-!
Verification of the parametric-speaker firmware (`src/main.rs`) against its
specification.  The firmware is shallowly embedded: Rust `i32` arithmetic is
modelled as `Int` with explicit two's-complement wrapping, `usize` as `Nat`
saturating at the 32-bit bound of the Cortex-M4 target, `as u16` narrowing as
reduction modulo 2^16, and the `heapless` SPSC ring as an index-based ring
buffer.
-/

namespace ParametricSpeaker

/-- `AUDIO_QUEUE_SIZE` from `main.rs`: the const-generic size of the
`heapless::spsc::Queue<i16, AUDIO_QUEUE_SIZE>`. -/
def AUDIO_QUEUE_SIZE : Nat := 4096

/-- `NO_SIGNAL_SAMPLES` from `main.rs`: the amount of samples with the value
of 0 received before turning off the output. -/
def NO_SIGNAL_SAMPLES : Nat := 20000

/-- `AMPLIFY` from the `TIM1_CC` handler (`const AMPLIFY: i32 = 0000`). -/
def AMPLIFY : Int := 0

/-- Largest value of `usize` on the 32-bit Cortex-M4 target; `usize::saturating_add`
saturates here. -/
def USIZE_MAX : Nat := 2 ^ 32 - 1

/-- Two's-complement wrapping of a mathematical integer into the `i32` range,
modelling Rust release-mode overflow semantics. -/
def wrap32 (x : Int) : Int := (x + 2 ^ 31) % 2 ^ 32 - 2 ^ 31

/-- Rust `as u16` narrowing of an `i32` value: keep the low 16 bits. -/
def asU16 (x : Int) : Nat := (x % 2 ^ 16).toNat

/-- `min` in the `TIM1_CC` handler: `i16::MIN as i32 + AMPLIFY`. -/
def tim_min : Int := -32768 + AMPLIFY

/-- `max` in the `TIM1_CC` handler: `i16::MAX as i32 - AMPLIFY`. -/
def tim_max : Int := 32767 - AMPLIFY

/-- The duty computation of the `TIM1_CC` handler:
`((*max_duty as i32 * (value as i32 - min)) / (max - min)) as u16`,
with `i32` products wrapped and Rust's truncating `i32` division. -/
def dutyOf (max_duty : Nat) (value : Int) : Nat :=
  asU16 (Int.tdiv (wrap32 ((max_duty : Int) * wrap32 (value - tim_min))) (tim_max - tim_min))

/-- Polarity of a timer output, as in `stm32f4xx_hal::timer::Polarity`. -/
inductive Polarity where
  | ActiveHigh : Polarity
  | ActiveLow : Polarity
deriving DecidableEq, Repr

/-- Observable state of one erased PWM channel: the register fields that the
firmware touches (primary polarity, complementary polarity, the two enable
bits and the duty register). -/
structure Channel where
  polarity : Polarity
  comp_polarity : Polarity
  enabled : Bool
  comp_enabled : Bool
  duty : Nat
deriving DecidableEq, Repr

/-- `set_polarity` on a channel. -/
def set_polarity (c : Channel) (p : Polarity) : Channel := { c with polarity := p }

/-- `set_complementary_polarity` on a channel. -/
def set_complementary_polarity (c : Channel) (p : Polarity) : Channel :=
  { c with comp_polarity := p }

/-- `enable` on a channel. -/
def enable (c : Channel) : Channel := { c with enabled := true }

/-- `enable_complementary` on a channel. -/
def enable_complementary (c : Channel) : Channel := { c with comp_enabled := true }

/-- `set_duty` on a channel. -/
def set_duty (c : Channel) (d : Nat) : Channel := { c with duty := d }

/-- The two erased channels `pwm_channels = [C1, C2]` of `TIM1`. -/
def PWMType := Channel × Channel

/-- `set_output_state` from `main.rs`: the output is disabled when the control
signals are complementary; only the complementary-polarity flags are written. -/
def set_output_state (pwm : PWMType) (enabled : Bool) : PWMType :=
  if enabled then
    (set_complementary_polarity pwm.1 Polarity.ActiveLow,
     set_complementary_polarity pwm.2 Polarity.ActiveHigh)
  else
    (set_complementary_polarity pwm.1 Polarity.ActiveHigh,
     set_complementary_polarity pwm.2 Polarity.ActiveLow)

/-- The PWM initialisation sequence of `main`: disable the output on power up,
set primary polarities (C1 active-high, C2 active-low), enable both channels
and their complementary outputs, and set both duties to `max_duty / 2`. -/
def main_init_pwm (base : PWMType) (max_duty : Nat) : PWMType :=
  let pwm := set_output_state base false
  let pwm := (enable_complementary (enable (set_polarity pwm.1 Polarity.ActiveHigh)), pwm.2)
  let pwm := (pwm.1, enable_complementary (enable (set_polarity pwm.2 Polarity.ActiveLow)))
  (set_duty pwm.1 (max_duty / 2), set_duty pwm.2 (max_duty / 2))

/-- Initial value of the `ZERO_COUNT` static in `TIM1_CC`:
`NO_SIGNAL_SAMPLES + 1` (disable the output at the start). -/
def ZERO_COUNT_INIT : Nat := NO_SIGNAL_SAMPLES + 1

/-- The output is in the enabled (radiating) state: the complementary outputs
are the inverses of the primaries. -/
def outputEnabled (pwm : PWMType) : Prop :=
  pwm.1.comp_polarity = Polarity.ActiveLow ∧ pwm.2.comp_polarity = Polarity.ActiveHigh

/-- The output is in the disabled (gated) state: each complementary output
equals its primary, so the bridge load sees 0 V. -/
def outputDisabled (pwm : PWMType) : Prop :=
  pwm.1.comp_polarity = Polarity.ActiveHigh ∧ pwm.2.comp_polarity = Polarity.ActiveLow

instance (pwm : PWMType) : Decidable (outputEnabled pwm) := by
  unfold outputEnabled; infer_instance

instance (pwm : PWMType) : Decidable (outputDisabled pwm) := by
  unfold outputDisabled; infer_instance

/-- Body of the `TIM1_CC` handler after the sample `value` has been obtained:
the gating update on `ZERO_COUNT` (with `usize::saturating_add`), followed by
the duty computation and `set_duty` on both channels.  Returns the new
`ZERO_COUNT` and channel states. -/
def tim1_cc_body (value : Int) (zero_count : Nat) (pwm : PWMType) (max_duty : Nat) :
    Nat × PWMType :=
  let s :=
    if value = 0 then
      let zc := min (zero_count + 1) USIZE_MAX
      (zc, if zc > NO_SIGNAL_SAMPLES then set_output_state pwm false else pwm)
    else
      (0, set_output_state pwm true)
  let duty := dutyOf max_duty value
  (s.1, (set_duty s.2.1 duty, set_duty s.2.2 duty))

/-- Iterate the `TIM1_CC` body on silent samples (`value = 0`) `k` times. -/
def pumpZeros (max_duty : Nat) (k : Nat) (s : Nat × PWMType) : Nat × PWMType :=
  match k with
  | 0 => s
  | k + 1 =>
    let s' := pumpZeros max_duty k s
    tim1_cc_body 0 s'.1 s'.2 max_duty

/-- State of the sample ring.  Modelled from the `heapless` crate (a
dependency, not part of this repository): `heapless::spsc::Queue<i16, N>` is a
one-slot-reserved ring buffer over an `N`-element backing array with `head`
and `tail` indices kept in `0..N`; it therefore holds at most `N - 1`
elements.  The backing array is modelled as a function from slot index to
sample. -/
structure SpscQueue where
  buffer : Nat → Int
  head : Nat
  tail : Nat

/-- The freshly constructed `spsc::Queue::new()`: `head = tail = 0`. -/
def emptyQueue : SpscQueue := ⟨fun _ => 0, 0, 0⟩

/-- `heapless` `Producer::enqueue`: fails (returns `Err`, modelled as `none`)
when advancing `tail` would make it collide with `head`; otherwise writes the
value at `tail` and advances `tail` modulo `AUDIO_QUEUE_SIZE`. -/
def spscEnqueue (q : SpscQueue) (v : Int) : Option SpscQueue :=
  let next := (q.tail + 1) % AUDIO_QUEUE_SIZE
  if next = q.head then none
  else some { buffer := fun i => if i = q.tail then v else q.buffer i, head := q.head, tail := next }

/-- `heapless` `Consumer::dequeue`: returns `none` when `head = tail`
(ring empty); otherwise yields the sample at `head` and advances `head`
modulo `AUDIO_QUEUE_SIZE`. -/
def spscDequeue (q : SpscQueue) : Option (Int × SpscQueue) :=
  if q.head = q.tail then none
  else some (q.buffer q.head, { q with head := (q.head + 1) % AUDIO_QUEUE_SIZE })

/-- Number of samples held by the ring (for `head`, `tail` in `0..N`). -/
def queueLen (q : SpscQueue) : Nat :=
  (q.tail + AUDIO_QUEUE_SIZE - q.head) % AUDIO_QUEUE_SIZE

/-- Enqueue a list of samples in order, keeping the queue unchanged on a
failed enqueue (as both ISR call sites do: log and continue).  Returns the
final queue and the per-sample success flags in order. -/
def enqueueAll (l : List Int) (q : SpscQueue) : SpscQueue × List Bool :=
  match l with
  | [] => (q, [])
  | v :: rest =>
    match spscEnqueue q v with
    | some q' =>
      let r := enqueueAll rest q'
      (r.1, true :: r.2)
    | none =>
      let r := enqueueAll rest q
      (r.1, false :: r.2)

/-- Dequeue up to `k` samples, stopping early if the ring empties.  Returns
the dequeued samples in order and the final queue. -/
def dequeueAll (k : Nat) (q : SpscQueue) : List Int × SpscQueue :=
  match k with
  | 0 => ([], q)
  | k + 1 =>
    match spscDequeue q with
    | none => ([], q)
    | some (v, q') =>
      let r := dequeueAll k q'
      (v :: r.1, r.2)

/-- One invocation of the `TIM1_CC` handler acting on the ring and the
gating/PWM state: dequeue one sample, substituting `0` and reporting an
underrun on empty, then run the gating and duty update.  Returns the new
queue, the underrun flag, and the new `ZERO_COUNT` and channel states. -/
def tim1_cc (q : SpscQueue) (zero_count : Nat) (pwm : PWMType) (max_duty : Nat) :
    SpscQueue × Bool × Nat × PWMType :=
  let d := match spscDequeue q with
    | some (v, q') => (v, q', false)
    | none => (0, q, true)
  let s := tim1_cc_body d.1 zero_count pwm max_duty
  (d.2.1, d.2.2, s.1, s.2)

/-- A byte, as read from the USB endpoint buffer. -/
def Byte := Fin 256

/-- Rust `i16::from_le_bytes([b0, b1])`: little-endian reassembly followed by
two's-complement interpretation. -/
def i16_from_le_bytes (b0 b1 : Byte) : Int :=
  let u : Nat := b0.val + 256 * b1.val
  if u < 32768 then (u : Int) else (u : Int) - 65536

/-- Rust `slice::try_into` for an expected length of 2, as used on each chunk
before `i16::from_le_bytes`; fails unless the chunk has exactly 2 bytes. -/
def tryInto2 (c : List Byte) : Option (Byte × Byte) :=
  match c with
  | [b0, b1] => some (b0, b1)
  | _ => none

/-- Rust `chunks_exact(2)` on the received byte slice: consecutive 2-byte
groups in order, discarding a trailing odd byte. -/
def chunksExact2 (bytes : List Byte) : List (List Byte) :=
  match bytes with
  | b0 :: b1 :: rest => [b0, b1] :: chunksExact2 rest
  | _ => []

/-- The samples parsed from a received byte buffer: each 2-byte group decoded
little-endian, in stream order. -/
def otgParse (bytes : List Byte) : List Int :=
  (chunksExact2 bytes).map (fun c =>
    match tryInto2 c with
    | some p => i16_from_le_bytes p.1 p.2
    | none => 0)

/-- The enqueue loop of the `OTG_FS` handler over the received bytes: for each
exact 2-byte chunk, `try_into` (whose failure would be the `expect` panic,
modelled as `none`), decode little-endian, and enqueue, keeping the queue on
`Full`.  Returns `none` only if some chunk fails `try_into`. -/
def otg_fs_process (bytes : List Byte) (q : SpscQueue) : Option SpscQueue :=
  match bytes with
  | b0 :: b1 :: rest =>
    match tryInto2 [b0, b1] with
    | none => none
    | some p =>
      let val := i16_from_le_bytes p.1 p.2
      let q' := match spscEnqueue q val with
        | some q2 => q2
        | none => q
      otg_fs_process rest q'
  | _ => some q

/-- The specification's duty formula `(max_duty * (v − min)) / (max − min)`
in exact integer arithmetic (no wrapping, no narrowing); used to compare the
handler's computation against the spec. -/
def dutyFormula (max_duty : Nat) (v : Int) : Int :=
  ((max_duty : Int) * (v - tim_min)) / (tim_max - tim_min)

/-- The zero byte, used only as the (never reachable) `getD` default when
indexing received buffers. -/
def byte0 : Byte := (0 : Fin 256)

/-- The `n` distinct sample values `0, 1, ..., n - 1` used in the overrun
scenario. -/
def overrunVals (n : Nat) : List Int := (List.range n).map Int.ofNat

/-- A channel in its reset state, used as a concrete base state in witnesses. -/
def initChannel : Channel :=
  ⟨Polarity.ActiveHigh, Polarity.ActiveHigh, false, false, 0⟩

/-- A concrete channel pair in the enabled gating state, used in witnesses. -/
def enabledPwm : PWMType :=
  ({ initChannel with comp_polarity := Polarity.ActiveLow }, initChannel)

/-- Wrapping is the identity on values already in the `i32` range. -/
theorem wrap32_id (x : Int) (h1 : -(2 ^ 31) ≤ x) (h2 : x < 2 ^ 31) : wrap32 x = x := by
  unfold wrap32
  omega

/-- Bridging lemma: on the full `i16` input range, and for any `max_duty` up
to `32768`, the handler's wrapped `i32` duty computation agrees with exact
natural-number arithmetic. -/
theorem dutyOf_eq (m : Nat) (v : Int) (hm : m ≤ 32768) (h1 : -32768 ≤ v) (h2 : v ≤ 32767) :
    dutyOf m v = m * (v + 32768).toNat / 65535 := by
  have e1 : wrap32 (v - tim_min) = v + 32768 := by
    unfold wrap32 tim_min AMPLIFY
    omega
  unfold dutyOf
  set n := (v + 32768).toNat with hndef
  have hn2 : v + 32768 = (n : Int) := by omega
  rw [e1, hn2]
  have hnb : n ≤ 65535 := by omega
  have hprod : (m : Int) * (n : Int) = ((m * n : Nat) : Int) := by push_cast; ring
  rw [hprod]
  have hmn : m * n ≤ 32768 * 65535 := Nat.mul_le_mul hm hnb
  have e2 : wrap32 ((m * n : Nat) : Int) = ((m * n : Nat) : Int) := by
    unfold wrap32
    omega
  rw [e2]
  have e3 : tim_max - tim_min = ((65535 : Nat) : Int) := by
    unfold tim_max tim_min AMPLIFY
    norm_num
  rw [e3, ← Int.ofNat_tdiv]
  have hq : m * n / 65535 ≤ 32768 := by
    calc m * n / 65535 ≤ 32768 * 65535 / 65535 := Nat.div_le_div_right hmn
    _ = 32768 := by norm_num
  unfold asU16
  omega

/-- Both channels' duty registers are written with `dutyOf` on every
invocation of the handler body, whatever the gating branch did. -/
theorem tim1_cc_body_duty (v : Int) (zc : Nat) (pwm : PWMType) (m : Nat) :
    (tim1_cc_body v zc pwm m).2.1.duty = dutyOf m v
    ∧ (tim1_cc_body v zc pwm m).2.2.duty = dutyOf m v := by
  simp [tim1_cc_body, set_duty]

/-- The spec's exact-arithmetic formula agrees with the natural-number form
used in `dutyOf_eq`. -/
theorem dutyFormula_eq (m : Nat) (v : Int) (h1 : -32768 ≤ v) (h2 : v ≤ 32767) :
    dutyFormula m v = ((m * (v + 32768).toNat / 65535 : Nat) : Int) := by
  unfold dutyFormula
  set n := (v + 32768).toNat with hndef
  have e3 : tim_max - tim_min = ((65535 : Nat) : Int) := by
    unfold tim_max tim_min AMPLIFY
    norm_num
  have e4 : v - tim_min = (n : Int) := by
    unfold tim_min AMPLIFY
    omega
  rw [e3, e4]
  push_cast
  ring_nf

/-- C1: with `AMPLIFY = 0` (so `min = -32768`, `max = 32767`), every sample
processed by the timer ISR writes to both PWM channels the duty
`(max_duty * (v - min)) / (max - min)` in exact integer arithmetic, and a
sample of exactly `0` maps to `duty = max_duty / 2` (midscale). -/
theorem c1_duty_formula (max_duty : Nat) (v : Int) (zc : Nat) (pwm : PWMType)
    (hm : max_duty ≤ 32768) (h1 : -32768 ≤ v) (h2 : v ≤ 32767) :
    (((tim1_cc_body v zc pwm max_duty).2.1.duty : Int) = dutyFormula max_duty v
      ∧ ((tim1_cc_body v zc pwm max_duty).2.2.duty : Int) = dutyFormula max_duty v)
    ∧ (tim1_cc_body 0 zc pwm max_duty).2.1.duty = max_duty / 2
    ∧ (tim1_cc_body 0 zc pwm max_duty).2.2.duty = max_duty / 2 := by
  obtain ⟨d1, d2⟩ := tim1_cc_body_duty v zc pwm max_duty
  obtain ⟨d01, d02⟩ := tim1_cc_body_duty 0 zc pwm max_duty
  have he := dutyOf_eq max_duty v hm h1 h2
  have he0 := dutyOf_eq max_duty 0 hm (by norm_num) (by norm_num)
  have hf := dutyFormula_eq max_duty v h1 h2
  have h32 : ((0 : Int) + 32768).toNat = 32768 := by decide
  have hmid : max_duty * 32768 / 65535 = max_duty / 2 := by omega
  refine ⟨⟨?_, ?_⟩, ?_, ?_⟩
  · rw [d1, he, hf]
  · rw [d2, he, hf]
  · rw [d01, he0, h32, hmid]
  · rw [d02, he0, h32, hmid]

/-- Witness for C1 at `max_duty = 2400`, `v = -100`. -/
theorem c1_duty_formula_witness :
    (2400 ≤ 32768 ∧ (-32768 : Int) ≤ -100 ∧ (-100 : Int) ≤ 32767)
    ∧ ((((tim1_cc_body (-100) 0 (initChannel, initChannel) 2400).2.1.duty : Int)
          = dutyFormula 2400 (-100)
        ∧ ((tim1_cc_body (-100) 0 (initChannel, initChannel) 2400).2.2.duty : Int)
          = dutyFormula 2400 (-100))
      ∧ (tim1_cc_body 0 0 (initChannel, initChannel) 2400).2.1.duty = 2400 / 2
      ∧ (tim1_cc_body 0 0 (initChannel, initChannel) 2400).2.2.duty = 2400 / 2) :=
  ⟨⟨by norm_num, by norm_num, by norm_num⟩,
    c1_duty_formula 2400 (-100) 0 (initChannel, initChannel)
      (by norm_num) (by norm_num) (by norm_num)⟩

/-- C3: at the nominal `max_duty = 2400`, for every `i16` sample the two
`i32` intermediates of the duty computation are unchanged by wrapping (no
overflow), the `as u16` narrowing of the quotient is value-preserving, and
the resulting duty lies in `[0, max_duty]`. -/
theorem c3_duty_bounds (v : Int) (h1 : -32768 ≤ v) (h2 : v ≤ 32767) :
    wrap32 (v - tim_min) = v - tim_min
    ∧ wrap32 ((2400 : Int) * (v - tim_min)) = (2400 : Int) * (v - tim_min)
    ∧ ((asU16 (Int.tdiv ((2400 : Int) * (v - tim_min)) (tim_max - tim_min)) : Int)
        = Int.tdiv ((2400 : Int) * (v - tim_min)) (tim_max - tim_min))
    ∧ 0 ≤ dutyOf 2400 v ∧ dutyOf 2400 v ≤ 2400 := by
  refine ⟨?_, ?_, ?_, Nat.zero_le _, ?_⟩
  · unfold wrap32 tim_min AMPLIFY
    omega
  · unfold wrap32 tim_min AMPLIFY
    omega
  · have h0 : (0 : Int) ≤ (2400 : Int) * (v - tim_min) := by
      unfold tim_min AMPLIFY
      omega
    have hd : (0 : Int) ≤ tim_max - tim_min := by
      unfold tim_max tim_min AMPLIFY
      norm_num
    rw [Int.tdiv_eq_ediv h0 hd]
    unfold asU16 tim_max tim_min AMPLIFY
    omega
  · rw [dutyOf_eq 2400 v (by norm_num) h1 h2]
    omega

/-- Witness for C3 at `v = 32767`. -/
theorem c3_duty_bounds_witness :
    ((-32768 : Int) ≤ 32767 ∧ (32767 : Int) ≤ 32767)
    ∧ (wrap32 ((32767 : Int) - tim_min) = (32767 : Int) - tim_min
      ∧ wrap32 ((2400 : Int) * ((32767 : Int) - tim_min))
          = (2400 : Int) * ((32767 : Int) - tim_min)
      ∧ ((asU16 (Int.tdiv ((2400 : Int) * ((32767 : Int) - tim_min)) (tim_max - tim_min)) : Int)
          = Int.tdiv ((2400 : Int) * ((32767 : Int) - tim_min)) (tim_max - tim_min))
      ∧ 0 ≤ dutyOf 2400 32767 ∧ dutyOf 2400 32767 ≤ 2400) :=
  ⟨⟨by norm_num, by norm_num⟩, c3_duty_bounds 32767 (by norm_num) (by norm_num)⟩

/-- C9: the duty computation is monotone on the `i16` range at the nominal
`max_duty = 2400`. -/
theorem c9_duty_monotone (v1 v2 : Int) (h1 : -32768 ≤ v1) (h2 : v2 ≤ 32767)
    (h12 : v1 ≤ v2) :
    dutyOf 2400 v1 ≤ dutyOf 2400 v2 := by
  rw [dutyOf_eq 2400 v1 (by norm_num) h1 (by omega),
    dutyOf_eq 2400 v2 (by norm_num) (by omega) h2]
  omega

/-- Witness for C9 at `v1 = -5`, `v2 = 7`. -/
theorem c9_duty_monotone_witness :
    ((-32768 : Int) ≤ -5 ∧ (7 : Int) ≤ 32767 ∧ (-5 : Int) ≤ 7)
    ∧ dutyOf 2400 (-5) ≤ dutyOf 2400 7 :=
  ⟨⟨by norm_num, by norm_num, by norm_num⟩,
    c9_duty_monotone (-5) 7 (by norm_num) (by norm_num) (by norm_num)⟩

/-- One silent sample: the counter saturates-increments, and the
complementary polarities are forced to the disabled pattern when the new
counter exceeds the threshold, otherwise left as they were. -/
theorem tim1_cc_body_zero (zc : Nat) (pwm : PWMType) (m : Nat) :
    (tim1_cc_body 0 zc pwm m).1 = min (zc + 1) USIZE_MAX
    ∧ (tim1_cc_body 0 zc pwm m).2.1.comp_polarity
        = (if min (zc + 1) USIZE_MAX > NO_SIGNAL_SAMPLES then Polarity.ActiveHigh
           else pwm.1.comp_polarity)
    ∧ (tim1_cc_body 0 zc pwm m).2.2.comp_polarity
        = (if min (zc + 1) USIZE_MAX > NO_SIGNAL_SAMPLES then Polarity.ActiveLow
           else pwm.2.comp_polarity) := by
  refine ⟨?_, ?_, ?_⟩
  · unfold tim1_cc_body
    simp
  · by_cases h : min (zc + 1) USIZE_MAX > NO_SIGNAL_SAMPLES
    · rw [if_pos h]
      unfold tim1_cc_body
      simp only [if_pos (show (0 : Int) = 0 from rfl)]
      rw [if_pos h]
      rfl
    · rw [if_neg h]
      unfold tim1_cc_body
      simp only [if_pos (show (0 : Int) = 0 from rfl)]
      rw [if_neg h]
      simp [set_duty]
  · by_cases h : min (zc + 1) USIZE_MAX > NO_SIGNAL_SAMPLES
    · rw [if_pos h]
      unfold tim1_cc_body
      simp only [if_pos (show (0 : Int) = 0 from rfl)]
      rw [if_pos h]
      rfl
    · rw [if_neg h]
      unfold tim1_cc_body
      simp only [if_pos (show (0 : Int) = 0 from rfl)]
      rw [if_neg h]
      simp [set_duty]

/-- Invariant of the silent-sample iteration: the counter follows the
saturating sum, and the complementary polarities are the disabled pattern
exactly once at least one step has pushed the counter past the threshold. -/
theorem pumpZeros_spec (m z0 : Nat) (pwm : PWMType) (k : Nat) (hz0 : z0 ≤ USIZE_MAX) :
    (pumpZeros m k (z0, pwm)).1 = min (z0 + k) USIZE_MAX
    ∧ (pumpZeros m k (z0, pwm)).2.1.comp_polarity
        = (if 1 ≤ k ∧ NO_SIGNAL_SAMPLES < z0 + k then Polarity.ActiveHigh
           else pwm.1.comp_polarity)
    ∧ (pumpZeros m k (z0, pwm)).2.2.comp_polarity
        = (if 1 ≤ k ∧ NO_SIGNAL_SAMPLES < z0 + k then Polarity.ActiveLow
           else pwm.2.comp_polarity) := by
  induction k with
  | zero =>
    refine ⟨?_, ?_, ?_⟩
    · simp [pumpZeros]
      omega
    · rw [if_neg (by omega)]
      rfl
    · rw [if_neg (by omega)]
      rfl
  | succ k ih =>
    obtain ⟨ih1, ih2, ih3⟩ := ih
    have hstep := tim1_cc_body_zero (pumpZeros m k (z0, pwm)).1 (pumpZeros m k (z0, pwm)).2 m
    obtain ⟨s1, s2, s3⟩ := hstep
    have hpk : pumpZeros m (k + 1) (z0, pwm)
        = tim1_cc_body 0 (pumpZeros m k (z0, pwm)).1 (pumpZeros m k (z0, pwm)).2 m := rfl
    rw [hpk, s1, s2, s3, ih1, ih2, ih3]
    have hM : NO_SIGNAL_SAMPLES < USIZE_MAX := by norm_num [NO_SIGNAL_SAMPLES, USIZE_MAX]
    by_cases hc : NO_SIGNAL_SAMPLES < z0 + (k + 1)
    · refine ⟨by omega, ?_, ?_⟩
      · rw [if_pos (by omega), if_pos ⟨by omega, hc⟩]
      · rw [if_pos (by omega), if_pos ⟨by omega, hc⟩]
    · have hsmall : ¬ min (z0 + k) USIZE_MAX + 1 > NO_SIGNAL_SAMPLES := by omega
      refine ⟨by omega, ?_, ?_⟩
      · rw [if_neg (by omega), if_neg (by omega), if_neg (by omega)]
      · rw [if_neg (by omega), if_neg (by omega), if_neg (by omega)]

/-- C2: from the enabled state with a zero counter, `k` consecutive zero
samples leave the output enabled exactly while `k ≤ NO_SIGNAL_SAMPLES`; from
the `(NO_SIGNAL_SAMPLES + 1)`-th zero onwards the output is in the disabled
(gated) state. -/
theorem c2_silence_gate (m : Nat) (pwm : PWMType) (k : Nat) (h : outputEnabled pwm) :
    (outputEnabled (pumpZeros m k (0, pwm)).2 ↔ k ≤ NO_SIGNAL_SAMPLES)
    ∧ (NO_SIGNAL_SAMPLES < k → outputDisabled (pumpZeros m k (0, pwm)).2) := by
  obtain ⟨-, h2, h3⟩ := pumpZeros_spec m 0 pwm k (by norm_num [USIZE_MAX])
  unfold outputEnabled outputDisabled at *
  by_cases hk : k ≤ NO_SIGNAL_SAMPLES
  · rw [h2, h3, if_neg (by omega), if_neg (by omega)]
    exact ⟨iff_of_true h hk, fun hlt => absurd hlt (by omega)⟩
  · rw [h2, h3, if_pos ⟨by omega, by omega⟩, if_pos ⟨by omega, by omega⟩]
    refine ⟨iff_of_false (fun hab => ?_) hk, fun _ => ⟨rfl, rfl⟩⟩
    exact Polarity.noConfusion hab.1

/-- Witness for C2 at `k = 5` from a concrete enabled state. -/
theorem c2_silence_gate_witness :
    outputEnabled enabledPwm
    ∧ ((outputEnabled (pumpZeros 2400 5 (0, enabledPwm)).2 ↔ 5 ≤ NO_SIGNAL_SAMPLES)
      ∧ (NO_SIGNAL_SAMPLES < 5 → outputDisabled (pumpZeros 2400 5 (0, enabledPwm)).2)) :=
  ⟨by decide, c2_silence_gate 2400 enabledPwm 5 (by decide)⟩

/-- C4: any non-zero sample resets the zero-run counter to `0` and puts the
output in the enabled state, whatever the counter held before. -/
theorem c4_nonzero_enables (v : Int) (zc : Nat) (pwm : PWMType) (m : Nat) (hv : v ≠ 0) :
    (tim1_cc_body v zc pwm m).1 = 0 ∧ outputEnabled (tim1_cc_body v zc pwm m).2 := by
  unfold tim1_cc_body set_output_state set_duty set_complementary_polarity outputEnabled
  simp [hv]

/-- Witness for C4 at `v = 5` with the counter at its saturated maximum. -/
theorem c4_nonzero_enables_witness :
    (5 : Int) ≠ 0
    ∧ ((tim1_cc_body 5 USIZE_MAX (initChannel, initChannel) 2400).1 = 0
      ∧ outputEnabled (tim1_cc_body 5 USIZE_MAX (initChannel, initChannel) 2400).2) :=
  ⟨by decide, c4_nonzero_enables 5 USIZE_MAX (initChannel, initChannel) 2400 (by decide)⟩

/-- C5: at power-up the zero-run counter starts strictly above the threshold,
`main` parks the output in the disabled state before enabling the channels,
and any number of silent/underrun pump invocations keeps it disabled. -/
theorem c5_powerup_muted (base : PWMType) (m k : Nat) :
    NO_SIGNAL_SAMPLES < ZERO_COUNT_INIT
    ∧ outputDisabled (main_init_pwm base m)
    ∧ outputDisabled (pumpZeros m k (ZERO_COUNT_INIT, main_init_pwm base m)).2 := by
  have hd : outputDisabled (main_init_pwm base m) := by
    unfold main_init_pwm set_output_state set_duty set_polarity enable
      enable_complementary set_complementary_polarity outputDisabled
    simp
  refine ⟨by norm_num [NO_SIGNAL_SAMPLES, ZERO_COUNT_INIT], hd, ?_⟩
  obtain ⟨-, h2, h3⟩ := pumpZeros_spec m ZERO_COUNT_INIT (main_init_pwm base m) k
    (by norm_num [USIZE_MAX, ZERO_COUNT_INIT, NO_SIGNAL_SAMPLES])
  unfold outputDisabled
  rw [h2, h3]
  by_cases hc : 1 ≤ k ∧ NO_SIGNAL_SAMPLES < ZERO_COUNT_INIT + k
  · rw [if_pos hc, if_pos hc]
    exact ⟨rfl, rfl⟩
  · rw [if_neg hc, if_neg hc]
    exact hd

/-- C7: when the ring is empty the handler substitutes the value `0`, reports
an underrun, leaves the ring unchanged, and runs the gating and duty update
exactly as for a received zero sample. -/
theorem c7_underrun (q : SpscQueue) (zc : Nat) (pwm : PWMType) (m : Nat)
    (h : spscDequeue q = none) :
    tim1_cc q zc pwm m = (q, true, tim1_cc_body 0 zc pwm m) := by
  unfold tim1_cc
  rw [h]

/-- Witness for C7 on the freshly constructed empty ring. -/
theorem c7_underrun_witness :
    spscDequeue emptyQueue = none
    ∧ tim1_cc emptyQueue 0 (initChannel, initChannel) 2400
        = (emptyQueue, true, tim1_cc_body 0 0 (initChannel, initChannel) 2400) :=
  ⟨rfl, c7_underrun emptyQueue 0 (initChannel, initChannel) 2400 rfl⟩

/-- C8: gating writes only the complementary-polarity flags — enabled
programs C1 `ActiveLow` / C2 `ActiveHigh`, disabled programs C1 `ActiveHigh` /
C2 `ActiveLow` — and never touches the channel enable bits (nor the primary
polarities or duties). -/
theorem c8_output_state (pwm : PWMType) :
    ((set_output_state pwm true).1.comp_polarity = Polarity.ActiveLow
      ∧ (set_output_state pwm true).2.comp_polarity = Polarity.ActiveHigh)
    ∧ ((set_output_state pwm false).1.comp_polarity = Polarity.ActiveHigh
      ∧ (set_output_state pwm false).2.comp_polarity = Polarity.ActiveLow)
    ∧ (∀ b : Bool,
        (set_output_state pwm b).1.enabled = pwm.1.enabled
        ∧ (set_output_state pwm b).1.comp_enabled = pwm.1.comp_enabled
        ∧ (set_output_state pwm b).2.enabled = pwm.2.enabled
        ∧ (set_output_state pwm b).2.comp_enabled = pwm.2.comp_enabled
        ∧ (set_output_state pwm b).1.polarity = pwm.1.polarity
        ∧ (set_output_state pwm b).2.polarity = pwm.2.polarity
        ∧ (set_output_state pwm b).1.duty = pwm.1.duty
        ∧ (set_output_state pwm b).2.duty = pwm.2.duty) := by
  refine ⟨⟨rfl, rfl⟩, ⟨rfl, rfl⟩, fun b => ?_⟩
  cases b <;> exact ⟨rfl, rfl, rfl, rfl, rfl, rfl, rfl, rfl⟩

/-- Induction principle matching the two-bytes-at-a-time recursion of the
USB byte loop. -/
theorem twoStepInduction {P : List Byte → Prop} (nilCase : P [])
    (oneCase : ∀ b, P [b]) (twoCase : ∀ a b l, P l → P (a :: b :: l)) :
    ∀ l, P l
  | [] => nilCase
  | [b] => oneCase b
  | a :: b :: rest => twoCase a b rest (twoStepInduction nilCase oneCase twoCase rest)

/-- The `OTG_FS` byte loop never reaches the `expect` panic, and enqueues
exactly the parsed samples in stream order. -/
theorem otg_process_eq (l : List Byte) :
    ∀ q, otg_fs_process l q = some ((enqueueAll (otgParse l) q).1) := by
  induction l using twoStepInduction with
  | nilCase => intro q; rfl
  | oneCase b => intro q; rfl
  | twoCase a b rest ih =>
    intro q
    have hparse : otgParse (a :: b :: rest) = i16_from_le_bytes a b :: otgParse rest := rfl
    rw [hparse]
    cases h : spscEnqueue q (i16_from_le_bytes a b) with
    | none => simp [otg_fs_process, enqueueAll, tryInto2, h, ih]
    | some q2 => simp [otg_fs_process, enqueueAll, tryInto2, h, ih]

/-- The parse yields exactly `floor (len / 2)` samples. -/
theorem otgParse_length (l : List Byte) : (otgParse l).length = l.length / 2 := by
  induction l using twoStepInduction with
  | nilCase => rfl
  | oneCase b => simp [otgParse, chunksExact2]
  | twoCase a b rest ih =>
    have hparse : otgParse (a :: b :: rest) = i16_from_le_bytes a b :: otgParse rest := rfl
    rw [hparse]
    simp only [List.length_cons, ih]
    omega

/-- The `i`-th parsed sample is the little-endian decode of bytes `2i` and
`2i + 1`. -/
theorem otgParse_decode (l : List Byte) :
    otgParse l = (List.range (l.length / 2)).map
      (fun i => i16_from_le_bytes (l.getD (2 * i) byte0) (l.getD (2 * i + 1) byte0)) := by
  induction l using twoStepInduction with
  | nilCase => rfl
  | oneCase b => simp [otgParse, chunksExact2]
  | twoCase a b rest ih =>
    have hparse : otgParse (a :: b :: rest) = i16_from_le_bytes a b :: otgParse rest := rfl
    have hlen : (a :: b :: rest).length / 2 = rest.length / 2 + 1 := by
      simp only [List.length_cons]
      omega
    rw [hparse, hlen, List.range_succ_eq_map, List.map_cons, List.map_map, ih]
    refine List.cons_eq_cons.mpr ⟨rfl, ?_⟩
    apply List.map_congr_left
    intro i hi
    have e1 : 2 * (i + 1) = 2 * i + 1 + 1 := by ring
    have e2 : 2 * (i + 1) + 1 = 2 * i + 1 + 1 + 1 := by ring
    simp only [Function.comp_apply, e1, e2, List.getD_cons_succ]

/-- C10: for every received byte buffer, the sink loop cannot panic, parses
exactly `floor (len / 2)` samples — the little-endian decode of consecutive
2-byte groups, a trailing odd byte being discarded — and enqueues them into
the ring in stream order. -/
theorem c10_usb_sink (bytes : List Byte) (q : SpscQueue) :
    otg_fs_process bytes q = some ((enqueueAll (otgParse bytes) q).1)
    ∧ (otgParse bytes).length = bytes.length / 2
    ∧ otgParse bytes = (List.range (bytes.length / 2)).map
        (fun i => i16_from_le_bytes (bytes.getD (2 * i) byte0) (bytes.getD (2 * i + 1) byte0)) :=
  ⟨otg_process_eq bytes q, otgParse_length bytes, otgParse_decode bytes⟩

/-- Filling a ring whose `tail` has room for the whole list (with `head` at
`0`): every enqueue succeeds, `tail` advances by the list length, and the
backing array holds the list at slots `tail ..< tail + length`. -/
theorem enqueueAll_fill (l : List Int) : ∀ q : SpscQueue, q.head = 0 →
    q.tail + l.length < AUDIO_QUEUE_SIZE →
    (enqueueAll l q).2 = List.replicate l.length true
    ∧ (enqueueAll l q).1.head = 0
    ∧ (enqueueAll l q).1.tail = q.tail + l.length
    ∧ (∀ j : Nat, (enqueueAll l q).1.buffer j
        = if q.tail ≤ j ∧ j < q.tail + l.length then l.getD (j - q.tail) 0
          else q.buffer j) := by
  induction l with
  | nil =>
    intro q hh ht
    refine ⟨rfl, hh, by simp [enqueueAll], fun j => ?_⟩
    simp only [List.length_nil, Nat.add_zero]
    rw [if_neg (by omega)]
    rfl
  | cons v rest ih =>
    intro q hh ht
    have hlen : (v :: rest).length = rest.length + 1 := rfl
    rw [hlen] at ht
    have hmod : (q.tail + 1) % AUDIO_QUEUE_SIZE = q.tail + 1 :=
      Nat.mod_eq_of_lt (by omega)
    have henq : spscEnqueue q v
        = some ⟨fun i => if i = q.tail then v else q.buffer i, q.head, q.tail + 1⟩ := by
      unfold spscEnqueue
      simp only [hmod]
      rw [if_neg (by omega)]
    obtain ⟨f1, f2, f3, f4⟩ :=
      ih ⟨fun i => if i = q.tail then v else q.buffer i, q.head, q.tail + 1⟩ hh
        (by show q.tail + 1 + rest.length < AUDIO_QUEUE_SIZE; omega)
    have hstep : enqueueAll (v :: rest) q
        = ((enqueueAll rest ⟨fun i => if i = q.tail then v else q.buffer i,
              q.head, q.tail + 1⟩).1,
           true :: (enqueueAll rest ⟨fun i => if i = q.tail then v else q.buffer i,
              q.head, q.tail + 1⟩).2) := by
      simp only [enqueueAll, henq]
    refine ⟨?_, ?_, ?_, fun j => ?_⟩
    · rw [hstep]
      simp only [f1, hlen, List.replicate_succ]
    · rw [hstep]
      exact f2
    · rw [hstep]
      simp only [f3, hlen]
      omega
    · rw [hstep]
      simp only [f4 j]
      by_cases hj1 : q.tail + 1 ≤ j ∧ j < q.tail + 1 + rest.length
      · rw [if_pos hj1, if_pos (by rw [hlen]; omega)]
        have e : j - q.tail = (j - (q.tail + 1)) + 1 := by omega
        rw [e, List.getD_cons_succ]
      · rw [if_neg hj1]
        by_cases hj2 : j = q.tail
        · rw [if_pos hj2, if_pos (by rw [hlen]; omega)]
          rw [hj2, Nat.sub_self, List.getD_cons_zero]
        · rw [if_neg hj2, if_neg (by rw [hlen]; omega)]

/-- Enqueueing a concatenation runs the two halves in sequence. -/
theorem enqueueAll_append (l1 l2 : List Int) : ∀ q : SpscQueue,
    enqueueAll (l1 ++ l2) q
      = ((enqueueAll l2 (enqueueAll l1 q).1).1,
         (enqueueAll l1 q).2 ++ (enqueueAll l2 (enqueueAll l1 q).1).2) := by
  induction l1 with
  | nil => intro q; simp [enqueueAll]
  | cons v rest ih =>
    intro q
    cases h : spscEnqueue q v with
    | none => simp [enqueueAll, h, ih]
    | some q2 => simp [enqueueAll, h, ih]

/-- Enqueue fails on the full ring: with `head = 0` and `tail` at the last
slot, the advanced `tail` would collide with `head`. -/
theorem spscEnqueue_full (q : SpscQueue) (v : Int) (hh : q.head = 0)
    (ht : q.tail = AUDIO_QUEUE_SIZE - 1) : spscEnqueue q v = none := by
  unfold spscEnqueue
  have : (q.tail + 1) % AUDIO_QUEUE_SIZE = 0 := by
    rw [ht]
    norm_num [AUDIO_QUEUE_SIZE]
  simp only [this]
  rw [if_pos hh.symm]

/-- Draining a ring with in-range indices yields the buffer contents from
`head` on, stopping at `tail` or after `k` samples, whichever comes first. -/
theorem dequeueAll_drain : ∀ (k : Nat) (q : SpscQueue), q.head ≤ q.tail →
    q.tail < AUDIO_QUEUE_SIZE →
    (dequeueAll k q).1
      = (List.range (min k (q.tail - q.head))).map (fun i => q.buffer (q.head + i)) := by
  intro k
  induction k with
  | zero => intro q h1 h2; simp [dequeueAll]
  | succ k ih =>
    intro q h1 h2
    by_cases he : q.head = q.tail
    · have hd : spscDequeue q = none := by
        unfold spscDequeue
        rw [if_pos he]
      have hmin : min (k + 1) (q.tail - q.head) = 0 := by omega
      simp [dequeueAll, hd, hmin]
    · have hmod : (q.head + 1) % AUDIO_QUEUE_SIZE = q.head + 1 :=
        Nat.mod_eq_of_lt (by omega)
      have hd : spscDequeue q = some (q.buffer q.head, ⟨q.buffer, q.head + 1, q.tail⟩) := by
        unfold spscDequeue
        rw [if_neg he, hmod]
      simp only [dequeueAll, hd]
      rw [ih ⟨q.buffer, q.head + 1, q.tail⟩ (by show q.head + 1 ≤ q.tail; omega) h2]
      have hmin : min (k + 1) (q.tail - q.head) = min k (q.tail - (q.head + 1)) + 1 := by
        omega
      rw [hmin, List.range_succ_eq_map, List.map_cons, List.map_map]
      refine List.cons_eq_cons.mpr ⟨by simp, ?_⟩
      apply List.map_congr_left
      intro i hi
      simp only [Function.comp_apply]
      congr 1
      omega

/-- The overrun scenario's value list is just the index. -/
theorem overrunVals_getD (n j : Nat) (h : j < n) : (overrunVals n).getD j 0 = (j : Int) := by
  unfold overrunVals
  have hlen : j < ((List.range n).map Int.ofNat).length := by
    rw [List.length_map, List.length_range]
    exact h
  rw [List.getD_eq_getElem _ _ hlen, List.getElem_map, List.getElem_range]
  rfl

/-- Splitting off the last two of the 4097 overrun values. -/
theorem overrunVals_split :
    overrunVals 4097 = overrunVals 4095 ++ [(4095 : Int), (4096 : Int)] := by
  unfold overrunVals
  rw [show (4097 : Nat) = 4096 + 1 from rfl, List.range_succ,
    show (4096 : Nat) = 4095 + 1 from rfl, List.range_succ]
  simp

/-- The complete overrun scenario: 4097 distinct values into the empty ring.
The first 4095 enqueues succeed, the 4096th and 4097th fail, and draining
returns the first 4095 values in order. -/
theorem c6_run :
    (enqueueAll (overrunVals 4097) emptyQueue).2
      = List.replicate 4095 true ++ [false, false]
    ∧ (dequeueAll 4096 (enqueueAll (overrunVals 4097) emptyQueue).1).1
      = overrunVals 4095 := by
  have hlen : (overrunVals 4095).length = 4095 := by
    unfold overrunVals
    rw [List.length_map, List.length_range]
  have het : emptyQueue.tail = 0 := rfl
  have hbound : emptyQueue.tail + (overrunVals 4095).length < AUDIO_QUEUE_SIZE := by
    rw [het, hlen]
    norm_num [AUDIO_QUEUE_SIZE]
  obtain ⟨f1, f2, f3, f4⟩ := enqueueAll_fill (overrunVals 4095) emptyQueue rfl hbound
  rw [het] at f3 f4
  simp only [Nat.zero_add, Nat.sub_zero, Nat.zero_le, true_and, hlen] at f3 f4
  set qF := (enqueueAll (overrunVals 4095) emptyQueue).1 with hqF
  have htail : qF.tail = 4095 := f3
  have henq1 : spscEnqueue qF 4095 = none :=
    spscEnqueue_full qF _ f2 (by rw [htail]; rfl)
  have henq2 : spscEnqueue qF 4096 = none :=
    spscEnqueue_full qF _ f2 (by rw [htail]; rfl)
  have htwo : enqueueAll [(4095 : Int), (4096 : Int)] qF = (qF, [false, false]) := by
    simp only [enqueueAll, henq1, henq2]
  rw [overrunVals_split, enqueueAll_append]
  rw [← hqF, htwo]
  constructor
  · simp only [f1, hlen]
  · rw [dequeueAll_drain 4096 qF (by rw [f2, htail]; norm_num)
      (by rw [htail]; norm_num [AUDIO_QUEUE_SIZE])]
    simp only [f2, htail]
    have hmin : min 4096 (4095 - 0) = 4095 := by norm_num
    rw [hmin]
    unfold overrunVals
    apply List.map_congr_left
    intro i hi
    rw [List.mem_range] at hi
    rw [Nat.zero_add, f4 i, if_pos hi]
    exact overrunVals_getD 4095 i hi

/-- C6 (amended): the `heapless` ring declared with 4096 slots reserves one
slot, so it holds at most 4095 samples; a full ring rejects enqueues leaving
its contents unchanged, and in the overrun scenario with 4097 distinct values
the last two enqueues fail while draining yields the first 4095 values in
FIFO order. -/
theorem c6_ring_capacity :
    (∀ q : SpscQueue, queueLen q ≤ AUDIO_QUEUE_SIZE - 1)
    ∧ (enqueueAll (overrunVals 4097) emptyQueue).2
        = List.replicate 4095 true ++ [false, false]
    ∧ (dequeueAll 4096 (enqueueAll (overrunVals 4097) emptyQueue).1).1
        = overrunVals 4095 :=
  ⟨fun q => by unfold queueLen AUDIO_QUEUE_SIZE; omega, c6_run.1, c6_run.2⟩

/-- C6 counterexample: with 4097 distinct values enqueued into the empty ring
of declared size 4096, the 4096th enqueue (index 4095) already returns `Full`
— not only the last one — and draining yields only 4095 samples, not 4096. -/
theorem c6_counterexample :
    (enqueueAll (overrunVals 4097) emptyQueue).2.getD 4095 true = false
    ∧ (dequeueAll 4096 (enqueueAll (overrunVals 4097) emptyQueue).1).1.length = 4095 := by
  constructor
  · rw [c6_run.1,
      List.getD_append_right _ _ _ _ (by rw [List.length_replicate])]
    rw [List.length_replicate]
    rfl
  · rw [c6_run.2]
    unfold overrunVals
    rw [List.length_map, List.length_range]

end ParametricSpeaker
